import Mathlib

/-!
Verification of the timestamp-alignment and conversion-orchestration subsystem
of the neuroconv repository.

The development shallowly embeds the relevant program fragments:

* the piecewise-linear interpolation/extrapolation mapping used by
  `align_by_interpolation`, over exact rationals;
* the direct-substitution alignment (`align_timestamps` / `get_timestamps`)
  of a columnar time-intervals interface;
* the recursive metadata merge `dict_deep_update`;
* the container-name disambiguation and per-item parameter validation of the
  movie-writing step;
* the per-session output-file naming and the post-hoc rename pass of
  `run_conversion_from_yaml`
  (`tools/yaml_conversion_specification/yaml_conversion_specification.py`).

Python machine floats are modelled as exact rationals (`ℚ`); Python strings as
Lean `String`; Python exceptions as `Except`/error-sum return values.
-/

/-! ## Piecewise-linear alignment mapping (`align_by_interpolation`) -/

/-- Value at `t` of the line through `(u0, a0)` and `(u1, a1)`. -/
def segEval (u0 a0 u1 a1 t : ℚ) : ℚ :=
  a0 + (a1 - a0) * (t - u0) / (u1 - u0)

/-- Modelled from the spec: the body of `align_by_interpolation` is not under
`src/` (only its test-suite callers are).  Per spec §4.1 it builds, from knot
pairs `(unaligned_timestamps[i], aligned_timestamps[i])`, a continuous
piecewise-linear function that linearly extrapolates outside the knot span
using the boundary segments' slopes.  Knots are given as `(u, a)` pairs in
query-coordinate order. -/
def piecewiseLinear : List (ℚ × ℚ) → ℚ → ℚ
  | [], _ => 0
  | [(_, a)], _ => a
  | [(u0, a0), (u1, a1)], t => segEval u0 a0 u1 a1 t
  | (u0, a0) :: (u1, a1) :: p :: rest, t =>
      if t ≤ u1 then segEval u0 a0 u1 a1 t
      else piecewiseLinear ((u1, a1) :: p :: rest) t

/-- The mapping `align_by_interpolation` builds from
`(unaligned_timestamps, aligned_timestamps)` knot arrays. -/
def alignmentMapping (unaligned aligned : List ℚ) : ℚ → ℚ :=
  piecewiseLinear (unaligned.zip aligned)

/-- A behavior-event interface holding one series of event timestamps
(the `MockBehaviorEventInterface` of the alignment tests). -/
structure MockBehaviorEventInterface where
  event_times : List ℚ

/-- Modelled from the spec: `align_by_interpolation` applies the
piecewise-linear mapping to the interface's own unaligned timestamps,
replacing its series (spec §4.1). -/
def MockBehaviorEventInterface.align_by_interpolation
    (iface : MockBehaviorEventInterface)
    (aligned_timestamps unaligned_timestamps : List ℚ) :
    MockBehaviorEventInterface :=
  ⟨iface.event_times.map (alignmentMapping unaligned_timestamps aligned_timestamps)⟩

def MockBehaviorEventInterface.get_timestamps
    (iface : MockBehaviorEventInterface) : List ℚ :=
  iface.event_times

/-! ## Direct-substitution alignment (`align_timestamps` on a columnar interface) -/

/-- Alignment errors (spec §7: `AlignmentLengthError`, `MissingChannelError`). -/
inductive AlignmentError where
  | lengthMismatch
  | missingColumn
  deriving DecidableEq, Repr

/-- A time-intervals interface (the `CsvTimeIntervalsInterface` of the tests):
named columns of timestamps. -/
structure CsvTimeIntervalsInterface where
  columns : List (String × List ℚ)
  deriving DecidableEq, Repr

/-- Dictionary lookup of a named column. -/
def lookupColumn : List (String × List ℚ) → String → Option (List ℚ)
  | [], _ => none
  | (k, v) :: rest, column => if k = column then some v else lookupColumn rest column

/-- The series stored under a named column. -/
def CsvTimeIntervalsInterface.get_timestamps
    (iface : CsvTimeIntervalsInterface) (column : String) : Option (List ℚ) :=
  lookupColumn iface.columns column

/-- Replace the series of every entry named `column`, keeping the rest. -/
def setColumn (cols : List (String × List ℚ)) (column : String) (ts : List ℚ) :
    List (String × List ℚ) :=
  cols.map fun p => if p.1 = column then (p.1, ts) else p

/-- Modelled from the spec: `align_timestamps` is not under `src/` (only its
test-suite callers are).  Per spec §4.1 it replaces the series identified by
the selector with the given array — a direct, index-aligned substitution —
after checking the replacement has the same length as the original series;
a length violation fails with a length-mismatch error. -/
def CsvTimeIntervalsInterface.align_timestamps
    (iface : CsvTimeIntervalsInterface) (aligned_timestamps : List ℚ)
    (column : String) : Except AlignmentError CsvTimeIntervalsInterface :=
  match iface.get_timestamps column with
  | none => Except.error AlignmentError.missingColumn
  | some current =>
      if aligned_timestamps.length = current.length then
        Except.ok ⟨setColumn iface.columns column aligned_timestamps⟩
      else
        Except.error AlignmentError.lengthMismatch

/-! ## Metadata trees and `dict_deep_update` -/

/-- A metadata tree (spec §3 `MetadataTree`): string keys; values are scalars,
lists, or nested trees.  Scalar and list payloads are opaque strings — the
merge never inspects them. -/
inductive MetaDict where
  | scalar : String → MetaDict
  | list : List String → MetaDict
  | node : List (String × MetaDict) → MetaDict

/-- Is the tree a mapping? -/
def MetaDict.isNode : MetaDict → Bool
  | MetaDict.node _ => true
  | _ => false

/-- Dictionary lookup among the entries of a mapping. -/
def lookupEntry : List (String × MetaDict) → String → Option MetaDict
  | [], _ => none
  | (k, v) :: rest, key => if k = key then some v else lookupEntry rest key

/-- Modelled from the spec: `dict_deep_update` is imported from
`...utils` and its body is not under `src/` (only its call sites in
`run_conversion_from_yaml` are).  Per spec §4.3: at each key present in both
sides, if both values are mappings the merge recurses, otherwise the override
value wins; lists and scalars from the override replace the base value
wholesale.  Base keys keep their order and new override keys are appended, as
with a Python dict update. -/
def dict_deep_update : MetaDict → MetaDict → MetaDict
  | MetaDict.node bs, MetaDict.node os =>
      MetaDict.node
        ((bs.attach.map fun kv =>
            match lookupEntry os kv.1.1 with
            | some ov => (kv.1.1, dict_deep_update kv.1.2 ov)
            | none => kv.1) ++
          os.filter fun p => (lookupEntry bs p.1).isNone)
  | _, o => o
termination_by b _ => sizeOf b
decreasing_by
  have h1 : sizeOf kv.1 < sizeOf bs := List.sizeOf_lt_of_mem kv.2
  have h2 : sizeOf kv.1.2 < sizeOf kv.1 := by
    obtain ⟨a, b⟩ := kv.1
    simp
  simp only [MetaDict.node.sizeOf_spec]
  omega

/-- The immediate child of a tree under key `k` (none for non-mapping trees). -/
def MetaDict.lookupKey : MetaDict → String → Option MetaDict
  | MetaDict.node es, k => lookupEntry es k
  | _, _ => none

/-- The subtree of a tree at a key path. -/
def MetaDict.lookupPath : MetaDict → List String → Option MetaDict
  | m, [] => some m
  | m, k :: p =>
      match m.lookupKey k with
      | some child => child.lookupPath p
      | none => none

/-! ## Container-name disambiguation for the movie-writing step -/

/-- Errors of the movie-writing step (spec §7: `ConfigurationError`,
`NamingConflictError`). -/
inductive ConversionError where
  | namingConflict
  | configurationError
  deriving DecidableEq, Repr

/-- One logical unit to write: a proposed container name and the path of the
video file backing it. -/
structure VideoUnit where
  name : String
  file_path : String
  deriving DecidableEq, Repr

/-- Append `file` to the container named `name`, or open a new container at
the end. -/
def addExternalFile (containers : List (String × List String))
    (name file : String) : List (String × List String) :=
  match containers with
  | [] => [(name, [file])]
  | (n, fs) :: rest =>
      if n == name then (n, fs ++ [file]) :: rest
      else (n, fs) :: addExternalFile rest name file

/-- Group units into containers by proposed name, in first-occurrence order,
each container aggregating the external file references of its units. -/
def groupByName (units : List VideoUnit) : List (String × List String) :=
  units.foldl (fun acc u => addExternalFile acc u.name u.file_path) []

/-- Modelled from the spec: the movie-writing routine is not under `src/`
(only its test-suite callers are).  Per spec §4.4: in merge-compatible
(external-reference) mode colliding names merge into one container holding
all colliding external file references; outside that mode colliding names
fail fast with a naming-conflict error before anything is written, and the
mandatory one-starting-time-per-unit parameter is validated for count
equality against the number of units, a mismatch failing with a
configuration error.  The result maps each written container name to its
external file references. -/
def write_movies (units : List VideoUnit) (external_mode : Bool)
    (starting_times : Option (List ℚ)) :
    Except ConversionError (List (String × List String)) :=
  if external_mode then
    Except.ok (groupByName units)
  else if (units.map VideoUnit.name).Nodup then
    match starting_times with
    | some ts =>
        if ts.length = units.length then
          Except.ok (units.map fun u => (u.name, [u.file_path]))
        else
          Except.error ConversionError.configurationError
    | none =>
        if units.length ≤ 1 then
          Except.ok (units.map fun u => (u.name, [u.file_path]))
        else
          Except.error ConversionError.configurationError
  else
    Except.error ConversionError.namingConflict

/-! ## Post-hoc rename pass of `run_conversion_from_yaml` (lines 135–151) -/

/-- `"temp_nwbfile_name_" in stem` — Python substring containment. -/
def containsTemp (stem : String) : Bool :=
  decide ("temp_nwbfile_name_".data <:+: stem.data)

/-- `dandi_filename.replace(" ", "_")` — the pattern is a single character,
so the replacement is a character map. -/
def sanitizeDandi (s : String) : String :=
  ⟨s.data.map fun c => if c = ' ' then '_' else c⟩

/-- One produced file as seen by the rename pass: its stem (name without the
`.nwb` suffix) and the `dandi_filename` the external uniqueness pass proposed
for it. -/
structure ProducedFile where
  stem : String
  dandi_filename : String
  deriving DecidableEq, Repr

/-- The final on-disk name of one file after the pass has processed it:
temp-named files are renamed to their sanitized proposed name, others keep
their name. -/
def finalName (f : ProducedFile) : String :=
  if containsTemp f.stem then sanitizeDandi f.dandi_filename else f.stem ++ ".nwb"

/-- The rename loop of `run_conversion_from_yaml` (lines 145–151): files are
processed in order; a temp-named file whose sanitized proposed name is the
bare `".nwb"` fails the `assert`, which raises and stops the whole loop —
that file and every later file keep their old names.  Returns the final
names of all files plus the stem of the failing file, if any. -/
def renamePass : List ProducedFile → List String × Option String
  | [] => ([], none)
  | f :: rest =>
      if containsTemp f.stem then
        if sanitizeDandi f.dandi_filename = ".nwb" then
          ((f.stem ++ ".nwb") :: rest.map (fun g => g.stem ++ ".nwb"), some f.stem)
        else
          let r := renamePass rest
          (sanitizeDandi f.dandi_filename :: r.1, r.2)
      else
        let r := renamePass rest
        ((f.stem ++ ".nwb") :: r.1, r.2)

/-- Lines 136–151: the pass runs only when some produced file carries the
deterministic placeholder marker in its stem; otherwise no file is touched. -/
def postHocRenames (files : List ProducedFile) : List String × Option String :=
  if files.any (fun f => containsTemp f.stem) then renamePass files
  else (files.map (fun f => f.stem ++ ".nwb"), none)

/-! ## Per-session output-file naming of `run_conversion_from_yaml`
(lines 99–104 and 128–130) -/

/-- The characters of Python's `.strip(".nwb")` argument, as a set. -/
def nwbStripSet : List Char := ['.', 'n', 'w', 'b']

/-- Python `str.strip(chars)`: remove every leading and every trailing
character belonging to the set. -/
def stripChars (cs : List Char) (s : String) : String :=
  ⟨((s.data.dropWhile fun c => decide (c ∈ cs)).reverse.dropWhile
      fun c => decide (c ∈ cs)).reverse⟩

/-- The decimal digit characters, for embedding Python's `f"{k}"` decimal
rendering of a nonnegative integer. -/
def digitChar : ℕ → Char
  | 0 => '0' | 1 => '1' | 2 => '2' | 3 => '3' | 4 => '4'
  | 5 => '5' | 6 => '6' | 7 => '7' | 8 => '8' | 9 => '9'
  | _ => 'X'

/-- Inverse of `digitChar` on decimal digits. -/
def digitVal : Char → ℕ
  | '0' => 0 | '1' => 1 | '2' => 2 | '3' => 3 | '4' => 4
  | '5' => 5 | '6' => 6 | '7' => 7 | '8' => 8 | '9' => 9
  | _ => 10

/-- Decimal digits of `n`, most significant first; `fuel` bounds the
recursion depth (any `fuel ≥ n` is enough). -/
def natDecDigitsAux : ℕ → ℕ → List Char
  | 0, n => [digitChar n]
  | fuel + 1, n =>
      if n < 10 then [digitChar n]
      else natDecDigitsAux fuel (n / 10) ++ [digitChar (n % 10)]

/-- Decimal digits of `n`, most significant first — the embedding of
Python's `f"{n}"`. -/
def natDecDigits (n : ℕ) : List Char := natDecDigitsAux n n

/-- The numeric value of a digit string, most significant first. -/
def decDigitsVal (l : List Char) : ℕ :=
  l.foldl (fun acc c => acc * 10 + digitVal c) 0

/-- `f"temp_nwbfile_name_{file_counter}"` (line 128): the deterministic
placeholder stem for the session with 1-based counter `k`. -/
def tempPlaceholder (k : ℕ) : String :=
  ⟨"temp_nwbfile_name_".data ++ natDecDigits k⟩

/-- Line 128 and line 130: the output file name of one session —
`session.get("nwbfile_name", f"temp_nwbfile_name_{file_counter}")
.strip(".nwb")` followed by appending the `".nwb"` extension.  A session is
modelled by its optional `nwbfile_name` entry, the only session field the
naming logic reads. -/
def sessionFileName (file_counter : ℕ) (nwbfile_name : Option String) : String :=
  stripChars nwbStripSet (nwbfile_name.getD (tempPlaceholder file_counter)) ++ ".nwb"

/-- The session loop (lines 99–104, 128–130): `file_counter` starts at 0 and
is incremented before each session, over all experiments of the batch. -/
def batchFileNamesAux : ℕ → List (Option String) → List String
  | _, [] => []
  | k, s :: rest => sessionFileName (k + 1) s :: batchFileNamesAux (k + 1) rest

/-- Output file names of a whole batch, experiments in specification order,
sessions in order within each experiment (each session contributing its
optional `nwbfile_name`). -/
def batchFileNames (experiments : List (List (Option String))) : List String :=
  batchFileNamesAux 0 experiments.flatten

/-- Ordering of knots by query coordinate. -/
def knotLt (p q : ℚ × ℚ) : Prop := p.1 < q.1

instance : IsTrans (ℚ × ℚ) knotLt :=
  ⟨fun _ _ _ h1 h2 => lt_trans h1 h2⟩

instance : DecidableRel knotLt := fun p q => by
  unfold knotLt; infer_instance

/-- Metadata tree `{"p": {"k": "1"}}` — a concrete low-precedence source. -/
def treeA : MetaDict := MetaDict.node [("p", MetaDict.node [("k", MetaDict.scalar "1")])]

/-- Metadata tree `{"p": "5"}` — a concrete middle-precedence source that
replaces the mapping at `"p"` with a scalar. -/
def treeB : MetaDict := MetaDict.node [("p", MetaDict.scalar "5")]

/-- Metadata tree `{"p": {"m": "2"}}` — a concrete high-precedence source
that puts a mapping back at `"p"`. -/
def treeC : MetaDict := MetaDict.node [("p", MetaDict.node [("m", MetaDict.scalar "2")])]

/-! # Theorems -/

theorem segEval_left (u0 a0 u1 a1 : ℚ) : segEval u0 a0 u1 a1 u0 = a0 := by
  simp [segEval]

theorem segEval_right (u0 a0 u1 a1 : ℚ) (h : u0 ≠ u1) :
    segEval u0 a0 u1 a1 u1 = a1 := by
  have h' : u1 - u0 ≠ 0 := sub_ne_zero.mpr (Ne.symm h)
  rw [segEval, mul_div_assoc, div_self h', mul_one]
  ring

theorem chain'_knot_pairwise {l : List (ℚ × ℚ)} (h : l.Chain' knotLt) :
    l.Pairwise knotLt :=
  List.chain'_iff_pairwise.mp h

theorem pl_knot_aux (rest : List (ℚ × ℚ)) :
    ∀ (k0 k1 : ℚ × ℚ), (k0 :: k1 :: rest).Chain' knotLt →
      ∀ x ∈ k0 :: k1 :: rest, piecewiseLinear (k0 :: k1 :: rest) x.1 = x.2 := by
  induction rest with
  | nil =>
      rintro ⟨u0, a0⟩ ⟨u1, a1⟩ hc x hx
      have h01 : u0 < u1 := (List.chain'_cons.mp hc).1
      simp only [List.mem_cons, List.not_mem_nil, or_false] at hx
      rcases hx with hx | hx
      · subst hx; exact segEval_left u0 a0 u1 a1
      · subst hx; exact segEval_right u0 a0 u1 a1 (ne_of_lt h01)
  | cons k2 rest ih =>
      rintro ⟨u0, a0⟩ ⟨u1, a1⟩ hc x hx
      have hp := chain'_knot_pairwise hc
      have h01 : u0 < u1 := (List.pairwise_cons.mp hp).1 (u1, a1) (by simp)
      simp only [List.mem_cons] at hx
      rcases hx with hx | hx | hx
      · subst hx
        simp only [piecewiseLinear, le_of_lt h01, if_pos (le_of_lt h01)]
        exact segEval_left u0 a0 u1 a1
      · subst hx
        simp only [piecewiseLinear, if_pos (le_refl u1)]
        exact segEval_right u0 a0 u1 a1 (ne_of_lt h01)
      · have hx' : x ∈ k2 :: rest := List.mem_cons.mpr hx
        have h1x : u1 < x.1 :=
          (List.pairwise_cons.mp (List.pairwise_cons.mp hp).2).1 x hx'
        have hnot : ¬x.1 ≤ u1 := not_le.mpr h1x
        simp only [piecewiseLinear, if_neg hnot]
        exact ih (u1, a1) k2 (List.chain'_cons.mp hc).2 x
          (List.mem_cons_of_mem _ hx')

theorem pl_knot (knots : List (ℚ × ℚ)) (hc : knots.Chain' knotLt) :
    ∀ x ∈ knots, piecewiseLinear knots x.1 = x.2 := by
  match knots with
  | [] => intro x hx; exact absurd hx (List.not_mem_nil x)
  | [(u, a)] =>
      intro x hx
      simp only [List.mem_singleton] at hx
      subst hx
      rfl
  | k0 :: k1 :: rest => exact pl_knot_aux rest k0 k1 hc

theorem zip_chain' (us as : List ℚ) (h : us.Chain' (· < ·))
    (hlen : us.length ≤ as.length) : (us.zip as).Chain' knotLt := by
  have hmap : (us.zip as).map Prod.fst = us := List.map_fst_zip us as hlen
  rw [← hmap] at h
  exact (List.chain'_map Prod.fst).mp h

/-- C3: for strictly sorted same-length knot arrays, the piecewise-linear
mapping built by `align_by_interpolation` reproduces `aligned_timestamps[i]`
exactly when queried at `unaligned_timestamps[i]`; consequently
`align_by_interpolation` on an interface whose series is exactly the
unaligned knot array yields exactly the aligned knot array. -/
theorem align_by_interpolation_knot_exact
    (unaligned aligned : List ℚ)
    (hsort : unaligned.Chain' (· < ·))
    (hlen : unaligned.length = aligned.length) :
    (∀ i (hi : i < unaligned.length) (hi' : i < aligned.length),
        alignmentMapping unaligned aligned unaligned[i] = aligned[i]) ∧
      (MockBehaviorEventInterface.align_by_interpolation
          ⟨unaligned⟩ aligned unaligned).get_timestamps = aligned := by
  have hchain := zip_chain' unaligned aligned hsort hlen.le
  have main : ∀ i (hi : i < unaligned.length) (hi' : i < aligned.length),
      alignmentMapping unaligned aligned unaligned[i] = aligned[i] := by
    intro i hi hi'
    have hz : i < (unaligned.zip aligned).length := by
      rw [List.length_zip]; omega
    have hmem : (unaligned[i], aligned[i]) ∈ unaligned.zip aligned := by
      have hg : (unaligned.zip aligned).get ⟨i, hz⟩ =
          (unaligned[i], aligned[i]) := by
        simp [List.get_eq_getElem, List.getElem_zip]
      rw [← hg]
      exact List.get_mem _ _ hz
    exact pl_knot (unaligned.zip aligned) hchain (unaligned[i], aligned[i]) hmem
  refine ⟨main, ?_⟩
  apply List.ext_getElem
  · simpa [MockBehaviorEventInterface.align_by_interpolation,
      MockBehaviorEventInterface.get_timestamps] using hlen
  · intro i hi hi'
    simpa [MockBehaviorEventInterface.align_by_interpolation,
      MockBehaviorEventInterface.get_timestamps] using
        main i (by simpa [MockBehaviorEventInterface.align_by_interpolation,
          MockBehaviorEventInterface.get_timestamps] using hi) hi'

theorem align_by_interpolation_knot_exact_witness :
    ([(0 : ℚ), 1, 2].Chain' (· < ·) ∧
        ([(0 : ℚ), 1, 2].length = [(3 : ℚ), 4, 6].length)) ∧
      alignmentMapping [(0 : ℚ), 1, 2] [(3 : ℚ), 4, 6] 1 = 4 := by
  have hch : [(0 : ℚ), 1, 2].Chain' (· < ·) :=
    List.chain'_cons.mpr ⟨by norm_num,
      List.chain'_cons.mpr ⟨by norm_num, List.chain'_singleton _⟩⟩
  refine ⟨⟨hch, by decide⟩, ?_⟩
  have h := (align_by_interpolation_knot_exact [(0 : ℚ), 1, 2] [(3 : ℚ), 4, 6]
    hch (by decide)).1 1 (by decide) (by decide)
  simpa using h

theorem segEval_extrap_form (u0 a0 u1 a1 t : ℚ) (h : u0 ≠ u1) :
    segEval u0 a0 u1 a1 t = a1 + (a1 - a0) / (u1 - u0) * (t - u1) := by
  have h' : u1 - u0 ≠ 0 := sub_ne_zero.mpr (Ne.symm h)
  rw [segEval]
  field_simp
  ring

theorem pl_before_first (k0 k1 : ℚ × ℚ) (rest : List (ℚ × ℚ)) (t : ℚ)
    (h : t ≤ k1.1) :
    piecewiseLinear (k0 :: k1 :: rest) t = segEval k0.1 k0.2 k1.1 k1.2 t := by
  obtain ⟨u0, a0⟩ := k0
  obtain ⟨u1, a1⟩ := k1
  cases rest with
  | nil => rfl
  | cons r rest' => simp only [piecewiseLinear, if_pos h]

theorem pl_beyond_last (k0 k1 : ℚ × ℚ) (t : ℚ) :
    ∀ (pre : List (ℚ × ℚ)), (pre ++ [k0, k1]).Chain' knotLt → k1.1 < t →
      piecewiseLinear (pre ++ [k0, k1]) t = segEval k0.1 k0.2 k1.1 k1.2 t := by
  intro pre
  induction pre with
  | nil =>
      intro _ _
      obtain ⟨u0, a0⟩ := k0
      obtain ⟨u1, a1⟩ := k1
      rfl
  | cons p pre₁ ih =>
      intro hc ht
      have hp := chain'_knot_pairwise hc
      have hk01 : k0.1 < k1.1 := by
        have hsub : [k0, k1].Sublist (p :: pre₁ ++ [k0, k1]) :=
          List.sublist_append_right _ _
        have := (List.pairwise_cons.mp (hp.sublist hsub)).1 k1 (by simp)
        exact this
      cases pre₁ with
      | nil =>
          have hnot : ¬t ≤ k0.1 := not_le.mpr (lt_trans hk01 ht)
          obtain ⟨up, ap⟩ := p
          obtain ⟨u0, a0⟩ := k0
          obtain ⟨u1, a1⟩ := k1
          simp only [List.nil_append, List.cons_append, piecewiseLinear,
            if_neg hnot]
      | cons q pre₂ =>
          have hq1 : q.1 < k1.1 := by
            have hmem : k1 ∈ pre₂ ++ [k0, k1] :=
              List.mem_append_right _ (by simp)
            exact (List.pairwise_cons.mp (List.pairwise_cons.mp hp).2).1 k1 hmem
          have hnot : ¬t ≤ q.1 := not_le.mpr (lt_trans hq1 ht)
          rcases hrest : pre₂ ++ [k0, k1] with _ | ⟨r, rest2⟩
          · exact absurd hrest (by simp)
          · obtain ⟨up, ap⟩ := p
            obtain ⟨uq, aq⟩ := q
            have : piecewiseLinear ((up, ap) :: (uq, aq) :: r :: rest2) t =
                piecewiseLinear ((uq, aq) :: r :: rest2) t := by
              simp only [piecewiseLinear, if_neg hnot]
            rw [List.cons_append, List.cons_append, hrest, this, ← hrest]
            exact ih (List.chain'_cons.mp hc).2 ht

/-- C1: for strictly sorted same-length knot arrays, a query beyond the last
knot maps to the value linearly extrapolated along the final segment's slope
(and differs from the clamped boundary value whenever that slope is nonzero);
symmetrically, a query before the first knot maps along the first segment's
slope. -/
theorem align_by_interpolation_extrapolates :
    (∀ (upre apre : List ℚ) (ua ub aa ab t : ℚ),
        upre.length = apre.length →
        (upre ++ [ua, ub]).Chain' (· < ·) →
        ub < t →
        alignmentMapping (upre ++ [ua, ub]) (apre ++ [aa, ab]) t =
            ab + (ab - aa) / (ub - ua) * (t - ub) ∧
          (aa ≠ ab →
            alignmentMapping (upre ++ [ua, ub]) (apre ++ [aa, ab]) t ≠ ab)) ∧
      (∀ (urest arest : List ℚ) (ua ub aa ab t : ℚ),
        (ua :: ub :: urest).Chain' (· < ·) →
        t < ua →
        alignmentMapping (ua :: ub :: urest) (aa :: ab :: arest) t =
            aa + (ab - aa) / (ub - ua) * (t - ua) ∧
          (aa ≠ ab →
            alignmentMapping (ua :: ub :: urest) (aa :: ab :: arest) t ≠ aa)) := by
  constructor
  · intro upre apre ua ub aa ab t hlen hsort ht
    have hzip : (upre ++ [ua, ub]).zip (apre ++ [aa, ab]) =
        upre.zip apre ++ [(ua, aa), (ub, ab)] := by
      rw [List.zip_append hlen]; rfl
    have hchain : ((upre ++ [ua, ub]).zip (apre ++ [aa, ab])).Chain' knotLt :=
      zip_chain' _ _ hsort (by simp [hlen])
    rw [hzip] at hchain
    have huab : ua < ub := by
      have hp : (upre ++ [ua, ub]).Pairwise (· < ·) :=
        List.chain'_iff_pairwise.mp hsort
      have hsub : [ua, ub].Sublist (upre ++ [ua, ub]) :=
        List.sublist_append_right _ _
      exact (List.pairwise_cons.mp (hp.sublist hsub)).1 ub (by simp)
    have hmain : alignmentMapping (upre ++ [ua, ub]) (apre ++ [aa, ab]) t =
        ab + (ab - aa) / (ub - ua) * (t - ub) := by
      rw [alignmentMapping, hzip,
        pl_beyond_last (ua, aa) (ub, ab) t (upre.zip apre) hchain ht]
      exact segEval_extrap_form ua aa ub ab t (ne_of_lt huab)
    refine ⟨hmain, fun hne => ?_⟩
    have hslope : (ab - aa) / (ub - ua) * (t - ub) ≠ 0 :=
      mul_ne_zero
        (div_ne_zero (sub_ne_zero.mpr (Ne.symm hne))
          (ne_of_gt (sub_pos.mpr huab)))
        (ne_of_gt (sub_pos.mpr ht))
    rw [hmain]
    intro h
    exact hslope (by linarith)
  · intro urest arest ua ub aa ab t hsort ht
    have huab : ua < ub := (List.chain'_cons.mp hsort).1
    have hmain : alignmentMapping (ua :: ub :: urest) (aa :: ab :: arest) t =
        aa + (ab - aa) / (ub - ua) * (t - ua) := by
      rw [alignmentMapping, List.zip_cons_cons, List.zip_cons_cons,
        pl_before_first (ua, aa) (ub, ab) _ t (le_of_lt (lt_trans ht huab)),
        segEval, div_mul_eq_mul_div]
    refine ⟨hmain, fun hne => ?_⟩
    have hslope : (ab - aa) / (ub - ua) * (t - ua) ≠ 0 :=
      mul_ne_zero
        (div_ne_zero (sub_ne_zero.mpr (Ne.symm hne))
          (ne_of_gt (sub_pos.mpr huab)))
        (ne_of_lt (sub_neg.mpr ht))
    rw [hmain]
    intro h
    exact hslope (by linarith)

theorem align_by_interpolation_extrapolates_witness :
    ([(0 : ℚ)].length = [(3 : ℚ)].length ∧
        ([(0 : ℚ)] ++ [1, 2]).Chain' (· < ·) ∧ (2 : ℚ) < 5) ∧
      alignmentMapping ([(0 : ℚ)] ++ [1, 2]) ([(3 : ℚ)] ++ [4, 6]) 5 =
          6 + (6 - 4) / (2 - 1) * (5 - 2) ∧
        alignmentMapping ([(0 : ℚ)] ++ [1, 2]) ([(3 : ℚ)] ++ [4, 6]) 5 ≠ 6 := by
  have hch : ([(0 : ℚ)] ++ [1, 2]).Chain' (· < ·) :=
    List.chain'_cons.mpr ⟨by norm_num,
      List.chain'_cons.mpr ⟨by norm_num, List.chain'_singleton _⟩⟩
  have h := align_by_interpolation_extrapolates.1 [(0 : ℚ)] [(3 : ℚ)]
    1 2 4 6 5 (by decide) hch (by norm_num)
  exact ⟨⟨by decide, hch, by norm_num⟩, h.1, h.2 (by norm_num)⟩

theorem setColumn_cons_eq (k : String) (v : List ℚ)
    (rest : List (String × List ℚ)) (col : String) (ts : List ℚ)
    (hk : k = col) :
    setColumn ((k, v) :: rest) col ts = (k, ts) :: setColumn rest col ts := by
  simp [setColumn, hk]

theorem setColumn_cons_ne (k : String) (v : List ℚ)
    (rest : List (String × List ℚ)) (col : String) (ts : List ℚ)
    (hk : ¬k = col) :
    setColumn ((k, v) :: rest) col ts = (k, v) :: setColumn rest col ts := by
  simp [setColumn, hk]

theorem lookupColumn_set_same (cols : List (String × List ℚ))
    (col : String) (ts : List ℚ)
    (h : (lookupColumn cols col).isSome) :
    lookupColumn (setColumn cols col ts) col = some ts := by
  induction cols with
  | nil => simp [lookupColumn] at h
  | cons kv rest ih =>
      obtain ⟨k, v⟩ := kv
      by_cases hk : k = col
      · rw [setColumn_cons_eq k v rest col ts hk]
        simp [lookupColumn, hk]
      · rw [setColumn_cons_ne k v rest col ts hk]
        have h' : (lookupColumn rest col).isSome := by
          simpa [lookupColumn, hk] using h
        simp [lookupColumn, hk, ih h']

theorem lookupColumn_set_other (cols : List (String × List ℚ))
    (col col' : String) (ts : List ℚ) (hne : col' ≠ col) :
    lookupColumn (setColumn cols col ts) col' = lookupColumn cols col' := by
  induction cols with
  | nil => rfl
  | cons kv rest ih =>
      obtain ⟨k, v⟩ := kv
      by_cases hk : k = col
      · have hk' : ¬k = col' := fun h => hne (h.symm.trans hk)
        rw [setColumn_cons_eq k v rest col ts hk]
        simp [lookupColumn, hk', ih]
      · rw [setColumn_cons_ne k v rest col ts hk]
        by_cases hk' : k = col'
        · simp [lookupColumn, hk']
        · simp [lookupColumn, hk', ih]

/-- C2: direct-substitution alignment round-trips — after
`align_timestamps(a)` on a column of matching length, `get_timestamps` on
the same column returns exactly `a`; in particular aligning the stop column
with `a + 1.0` after aligning the start column with `a` leaves the stop
timestamps exactly the aligned start timestamps plus 1.0. -/
theorem align_timestamps_round_trip :
    (∀ (iface : CsvTimeIntervalsInterface) (a cur : List ℚ) (col : String),
        iface.get_timestamps col = some cur →
        a.length = cur.length →
        ∃ iface', iface.align_timestamps a col = Except.ok iface' ∧
          iface'.get_timestamps col = some a) ∧
      (∀ (iface : CsvTimeIntervalsInterface) (a scur pcur : List ℚ),
        iface.get_timestamps "start_time" = some scur →
        iface.get_timestamps "stop_time" = some pcur →
        a.length = scur.length → a.length = pcur.length →
        ∃ if1 if2,
          iface.align_timestamps a "start_time" = Except.ok if1 ∧
            if1.align_timestamps (a.map (· + 1)) "stop_time" = Except.ok if2 ∧
            if2.get_timestamps "start_time" = some a ∧
            if2.get_timestamps "stop_time" = some (a.map (· + 1))) := by
  constructor
  · intro iface a cur col hget hlen
    refine ⟨⟨setColumn iface.columns col a⟩, ?_, ?_⟩
    · simp [CsvTimeIntervalsInterface.align_timestamps, hget, hlen]
    · exact lookupColumn_set_same iface.columns col a
        (by simp [CsvTimeIntervalsInterface.get_timestamps] at hget
            simp [hget])
  · intro iface a scur pcur hs hp hls hlp
    simp only [CsvTimeIntervalsInterface.get_timestamps] at hs hp
    have hp1 : lookupColumn (setColumn iface.columns "start_time" a)
        "stop_time" = some pcur := by
      rw [lookupColumn_set_other iface.columns "start_time" "stop_time" a
        (by decide)]
      exact hp
    refine ⟨⟨setColumn iface.columns "start_time" a⟩,
      ⟨setColumn (setColumn iface.columns "start_time" a) "stop_time"
        (a.map (· + 1))⟩, ?_, ?_, ?_, ?_⟩
    · simp [CsvTimeIntervalsInterface.align_timestamps,
        CsvTimeIntervalsInterface.get_timestamps, hs, hls]
    · simp [CsvTimeIntervalsInterface.align_timestamps,
        CsvTimeIntervalsInterface.get_timestamps, hp1, hlp]
    · show lookupColumn _ _ = _
      rw [lookupColumn_set_other _ "stop_time" "start_time" _ (by decide)]
      exact lookupColumn_set_same iface.columns "start_time" a (by simp [hs])
    · exact lookupColumn_set_same _ "stop_time" _ (by simp [hp1])

theorem align_timestamps_round_trip_witness :
    ((CsvTimeIntervalsInterface.mk
          [("start_time", [0, 1]), ("stop_time", [1, 2])]).get_timestamps
        "start_time" = some [0, 1] ∧
      (CsvTimeIntervalsInterface.mk
          [("start_time", [0, 1]), ("stop_time", [1, 2])]).get_timestamps
        "stop_time" = some [1, 2] ∧
      [(5 : ℚ), 7].length = [(0 : ℚ), 1].length ∧
      [(5 : ℚ), 7].length = [(1 : ℚ), 2].length) ∧
      ∃ if1 if2,
        (CsvTimeIntervalsInterface.mk
            [("start_time", [0, 1]), ("stop_time", [1, 2])]).align_timestamps
          [(5 : ℚ), 7] "start_time" = Except.ok if1 ∧
          if1.align_timestamps ([(5 : ℚ), 7].map (· + 1)) "stop_time" =
            Except.ok if2 ∧
          if2.get_timestamps "start_time" = some [(5 : ℚ), 7] ∧
          if2.get_timestamps "stop_time" = some ([(5 : ℚ), 7].map (· + 1)) := by
  refine ⟨⟨by decide, by decide, by decide, by decide⟩, ?_⟩
  exact align_timestamps_round_trip.2
    (CsvTimeIntervalsInterface.mk [("start_time", [0, 1]), ("stop_time", [1, 2])])
    [(5 : ℚ), 7] [(0 : ℚ), 1] [(1 : ℚ), 2]
    (by decide) (by decide) (by decide) (by decide)

theorem dict_deep_update_node (bs os : List (String × MetaDict)) :
    dict_deep_update (MetaDict.node bs) (MetaDict.node os) =
      MetaDict.node
        ((bs.map fun kv =>
            match lookupEntry os kv.1 with
            | some ov => (kv.1, dict_deep_update kv.2 ov)
            | none => kv) ++
          os.filter fun p => (lookupEntry bs p.1).isNone) := by
  rw [dict_deep_update]
  congr 1
  congr 1
  exact List.attach_map_val bs
    (fun kv =>
      match lookupEntry os kv.1 with
      | some ov => (kv.1, dict_deep_update kv.2 ov)
      | none => kv)

theorem dict_deep_update_base_not_node (b o : MetaDict)
    (h : b.isNode = false) : dict_deep_update b o = o := by
  cases b with
  | scalar s => simp [dict_deep_update]
  | list xs => simp [dict_deep_update]
  | node es => simp [MetaDict.isNode] at h

theorem dict_deep_update_override_not_node (b o : MetaDict)
    (h : o.isNode = false) : dict_deep_update b o = o := by
  cases o with
  | scalar s => cases b <;> simp [dict_deep_update]
  | list xs => cases b <;> simp [dict_deep_update]
  | node es => simp [MetaDict.isNode] at h

theorem lookupEntry_append (l1 l2 : List (String × MetaDict)) (k : String) :
    lookupEntry (l1 ++ l2) k =
      match lookupEntry l1 k with
      | some v => some v
      | none => lookupEntry l2 k := by
  induction l1 with
  | nil => rfl
  | cons kv rest ih =>
      obtain ⟨k1, v1⟩ := kv
      by_cases hk : k1 = k
      · simp [lookupEntry, hk]
      · simp [lookupEntry, hk, ih]

theorem lookupEntry_map_entry (h : String → MetaDict → MetaDict)
    (l : List (String × MetaDict)) (k : String) :
    lookupEntry (l.map fun kv => (kv.1, h kv.1 kv.2)) k =
      (lookupEntry l k).map (h k) := by
  induction l with
  | nil => rfl
  | cons kv rest ih =>
      obtain ⟨k1, v1⟩ := kv
      by_cases hk : k1 = k
      · subst hk
        simp [lookupEntry]
      · simp [lookupEntry, hk, ih]

theorem lookupEntry_filter_key (q : String → Bool)
    (l : List (String × MetaDict)) (k : String) :
    lookupEntry (l.filter fun p => q p.1) k =
      if q k then lookupEntry l k else none := by
  induction l with
  | nil => simp [lookupEntry]
  | cons kv rest ih =>
      obtain ⟨k1, v1⟩ := kv
      by_cases hq : q k1
      · by_cases hk : k1 = k
        · subst hk
          simp [lookupEntry, hq]
        · simp [List.filter_cons, hq, lookupEntry, hk, ih]
      · by_cases hk : k1 = k
        · subst hk
          simp [List.filter_cons, hq, lookupEntry, ih]
        · simp [List.filter_cons, hq, lookupEntry, hk, ih]

theorem lookupEntry_merged (bs os : List (String × MetaDict)) (k : String) :
    lookupEntry
      (bs.map fun kv =>
        match lookupEntry os kv.1 with
        | some ov => (kv.1, dict_deep_update kv.2 ov)
        | none => kv) k =
      (lookupEntry bs k).map fun bv =>
        match lookupEntry os k with
        | some ov => dict_deep_update bv ov
        | none => bv := by
  induction bs with
  | nil => rfl
  | cons kv rest ih =>
      obtain ⟨k1, v1⟩ := kv
      by_cases hk : k1 = k
      · subst hk
        cases hm : lookupEntry os k1 <;> simp [lookupEntry, hm]
      · cases hm : lookupEntry os k1 <;> simp [lookupEntry, hk, ih, hm]

theorem lookupKey_dict_deep_update (bs os : List (String × MetaDict))
    (k : String) :
    (dict_deep_update (MetaDict.node bs) (MetaDict.node os)).lookupKey k =
      match lookupEntry bs k, lookupEntry os k with
      | some bv, some ov => some (dict_deep_update bv ov)
      | some bv, none => some bv
      | none, some ov => some ov
      | none, none => none := by
  rw [dict_deep_update_node]
  simp only [MetaDict.lookupKey]
  rw [lookupEntry_append, lookupEntry_merged,
    lookupEntry_filter_key (fun key => (lookupEntry bs key).isNone) os k]
  cases hb : lookupEntry bs k <;> cases ho : lookupEntry os k <;> simp [hb, ho]

/-- C5: `dict_deep_update` merges key-wise — at each key present in both
mappings, two mapping values are merged recursively and any other override
value wins; whenever either side is not a mapping (a scalar or a list), the
override replaces the base wholesale.  In this embedding the function is pure
by construction: it builds a new tree and its arguments are immutable. -/
theorem dict_deep_update_spec :
    (∀ b o : MetaDict, b.isNode = false ∨ o.isNode = false →
        dict_deep_update b o = o) ∧
      (∀ (bs os : List (String × MetaDict)) (k : String),
        (dict_deep_update (MetaDict.node bs) (MetaDict.node os)).lookupKey k =
          match lookupEntry bs k, lookupEntry os k with
          | some bv, some ov => some (dict_deep_update bv ov)
          | some bv, none => some bv
          | none, some ov => some ov
          | none, none => none) := by
  constructor
  · rintro b o (h | h)
    · exact dict_deep_update_base_not_node b o h
    · exact dict_deep_update_override_not_node b o h
  · exact lookupKey_dict_deep_update

theorem dict_deep_update_spec_witness :
    ((MetaDict.list ["a", "b"]).isNode = false ∨
        (MetaDict.scalar "x").isNode = false) ∧
      dict_deep_update treeA (MetaDict.list ["a", "b"]) =
        MetaDict.list ["a", "b"] := by
  refine ⟨Or.inr rfl, ?_⟩
  exact dict_deep_update_spec.1 treeA (MetaDict.list ["a", "b"]) (Or.inr rfl)

/-- C4 (counterexample): `dict_deep_update` is not associative — for the
concrete sources `A = {"p": {"k": "1"}}`, `B = {"p": "5"}`,
`C = {"p": {"m": "2"}}`, merging sequentially in increasing precedence,
`(A ⊔ B) ⊔ C = {"p": {"m": "2"}}`, differs from the regrouped single merge
`A ⊔ (B ⊔ C) = {"p": {"k": "1", "m": "2"}}`. -/
theorem dict_deep_update_not_associative :
    dict_deep_update (dict_deep_update treeA treeB) treeC ≠
      dict_deep_update treeA (dict_deep_update treeB treeC) := by
  have eL : (dict_deep_update (dict_deep_update treeA treeB) treeC).lookupPath
      ["p", "k"] = none := by
    simp [treeA, treeB, treeC, dict_deep_update_node,
      dict_deep_update_override_not_node, dict_deep_update_base_not_node,
      MetaDict.isNode, lookupEntry, MetaDict.lookupPath, MetaDict.lookupKey]
  have eR : (dict_deep_update treeA (dict_deep_update treeB treeC)).lookupPath
      ["p", "k"] = some (MetaDict.scalar "1") := by
    simp [treeA, treeB, treeC, dict_deep_update_node,
      dict_deep_update_override_not_node, dict_deep_update_base_not_node,
      MetaDict.isNode, lookupEntry, MetaDict.lookupPath, MetaDict.lookupKey]
  intro h
  rw [h, eR] at eL
  exact Option.noConfusion eL

/-- C4 (amended): chained `dict_deep_update` in increasing precedence gives
the highest-precedence source the final say at every path where it holds a
non-mapping value: for every base — in particular the merge of any number of
lower-precedence sources — the merged tree agrees with the override `C`
wherever `C` holds a scalar or a list.  Full associativity does not hold. -/
theorem dict_deep_update_override_precedence :
    (∀ (p : List String) (X C v : MetaDict),
        C.lookupPath p = some v → v.isNode = false →
        (dict_deep_update X C).lookupPath p = some v) ∧
      (∀ (p : List String) (A B C v : MetaDict),
        C.lookupPath p = some v → v.isNode = false →
        (dict_deep_update (dict_deep_update A B) C).lookupPath p = some v) := by
  have main : ∀ (p : List String) (X C v : MetaDict),
      C.lookupPath p = some v → v.isNode = false →
      (dict_deep_update X C).lookupPath p = some v := by
    intro p
    induction p with
    | nil =>
        intro X C v hC hv
        simp only [MetaDict.lookupPath, Option.some.injEq] at hC
        subst hC
        rw [dict_deep_update_override_not_node X C hv]
        rfl
    | cons k p' ih =>
        intro X C v hC hv
        cases hck : C.lookupKey k with
        | none => simp [MetaDict.lookupPath, hck] at hC
        | some child =>
            simp only [MetaDict.lookupPath, hck] at hC
            cases C with
            | scalar s => simp [MetaDict.lookupKey] at hck
            | list xs => simp [MetaDict.lookupKey] at hck
            | node os =>
                simp only [MetaDict.lookupKey] at hck
                cases X with
                | scalar s =>
                    rw [dict_deep_update_base_not_node (MetaDict.scalar s)
                      (MetaDict.node os) rfl]
                    simp [MetaDict.lookupPath, MetaDict.lookupKey, hck, hC]
                | list xs =>
                    rw [dict_deep_update_base_not_node (MetaDict.list xs)
                      (MetaDict.node os) rfl]
                    simp [MetaDict.lookupPath, MetaDict.lookupKey, hck, hC]
                | node bs =>
                    have hkey := lookupKey_dict_deep_update bs os k
                    cases hb : lookupEntry bs k with
                    | none =>
                        rw [hb, hck] at hkey
                        simp only [MetaDict.lookupPath]
                        rw [hkey]
                        exact hC
                    | some bv =>
                        rw [hb, hck] at hkey
                        simp only [MetaDict.lookupPath]
                        rw [hkey]
                        exact ih bv child v hC hv
  exact ⟨main, fun p A B C v hC hv => main p (dict_deep_update A B) C v hC hv⟩

theorem dict_deep_update_override_precedence_witness :
    (treeC.lookupPath ["p", "m"] = some (MetaDict.scalar "2") ∧
        (MetaDict.scalar "2").isNode = false) ∧
      (dict_deep_update (dict_deep_update treeA treeB) treeC).lookupPath
          ["p", "m"] = some (MetaDict.scalar "2") := by
  have h1 : treeC.lookupPath ["p", "m"] = some (MetaDict.scalar "2") := by
    simp [treeC, MetaDict.lookupPath, MetaDict.lookupKey, lookupEntry]
  exact ⟨⟨h1, rfl⟩,
    dict_deep_update_override_precedence.2 ["p", "m"] treeA treeB treeC
      (MetaDict.scalar "2") h1 rfl⟩

theorem addExternalFile_no_match (acc : List (String × List String))
    (name file : String) (h : ∀ e ∈ acc, e.1 ≠ name) :
    addExternalFile acc name file = acc ++ [(name, [file])] := by
  induction acc with
  | nil => rfl
  | cons e rest ih =>
      obtain ⟨n, fs⟩ := e
      have hn : n ≠ name := h (n, fs) (by simp)
      have hbeq : (n == name) = false := beq_eq_false_iff_ne.mpr hn
      simp only [addExternalFile, hbeq, Bool.false_eq_true, if_false]
      rw [ih fun e he => h e (List.mem_cons_of_mem _ he)]
      rfl

theorem groupByName_foldl_nodup (units : List VideoUnit) :
    ∀ acc : List (String × List String),
      (∀ u ∈ units, ∀ e ∈ acc, e.1 ≠ u.name) →
      (units.map VideoUnit.name).Nodup →
      units.foldl (fun acc u => addExternalFile acc u.name u.file_path) acc =
        acc ++ units.map fun u => (u.name, [u.file_path]) := by
  induction units with
  | nil => intro acc _ _; simp
  | cons u rest ih =>
      intro acc hdisj hnodup
      have hu : ∀ e ∈ acc, e.1 ≠ u.name := hdisj u (by simp)
      have hnotin : u.name ∉ rest.map VideoUnit.name :=
        (List.nodup_cons.mp hnodup).1
      rw [List.foldl_cons, addExternalFile_no_match acc u.name u.file_path hu,
        ih (acc ++ [(u.name, [u.file_path])])
          (by
            intro v hv e he
            rcases List.mem_append.mp he with he | he
            · exact hdisj v (List.mem_cons_of_mem _ hv) e he
            · simp only [List.mem_singleton] at he
              subst he
              intro hc
              exact hnotin (List.mem_map.mpr ⟨v, hv, hc.symm⟩))
          (List.nodup_cons.mp hnodup).2]
      simp

theorem groupByName_foldl_same (n : String) (units : List VideoUnit) :
    ∀ fs : List String, (∀ u ∈ units, u.name = n) →
      units.foldl (fun acc u => addExternalFile acc u.name u.file_path)
          [(n, fs)] =
        [(n, fs ++ units.map VideoUnit.file_path)] := by
  induction units with
  | nil => intro fs _; simp
  | cons u rest ih =>
      intro fs hsame
      have hu : u.name = n := hsame u (by simp)
      rw [List.foldl_cons]
      have : addExternalFile [(n, fs)] u.name u.file_path =
          [(n, fs ++ [u.file_path])] := by
        simp [addExternalFile, hu]
      rw [this, ih (fs ++ [u.file_path])
        fun v hv => hsame v (List.mem_cons_of_mem _ hv)]
      simp

/-- C6: with the merge-compatible (external-reference) mode selected,
`N` units with `N` distinct proposed names produce exactly `N` containers,
one per unit; `N ≥ 1` units sharing one proposed name produce exactly one
container aggregating all `N` external file references. -/
theorem write_movies_container_counts :
    (∀ (units : List VideoUnit) (st : Option (List ℚ)),
        (units.map VideoUnit.name).Nodup →
        write_movies units true st =
            Except.ok (units.map fun u => (u.name, [u.file_path])) ∧
          (units.map fun u => (u.name, [u.file_path])).length =
            units.length) ∧
      (∀ (units : List VideoUnit) (st : Option (List ℚ)) (n : String),
        units ≠ [] → (∀ u ∈ units, u.name = n) →
        write_movies units true st =
          Except.ok [(n, units.map VideoUnit.file_path)]) := by
  constructor
  · intro units st hnodup
    constructor
    · simp only [write_movies, if_pos rfl, groupByName]
      rw [groupByName_foldl_nodup units [] (by simp) hnodup]
      rfl
    · simp
  · intro units st n hne hsame
    cases units with
    | nil => exact absurd rfl hne
    | cons u rest =>
        simp only [write_movies, if_pos rfl, groupByName, List.foldl_cons]
        have h1 : addExternalFile [] u.name u.file_path =
            [(u.name, [u.file_path])] := rfl
        have hu : u.name = n := hsame u (by simp)
        rw [h1, hu, groupByName_foldl_same n rest [u.file_path]
          fun v hv => hsame v (List.mem_cons_of_mem _ hv)]
        simp

theorem write_movies_container_counts_witness :
    (([VideoUnit.mk "v1" "f1", VideoUnit.mk "v2" "f2"].map
          VideoUnit.name).Nodup ∧
        write_movies [VideoUnit.mk "v1" "f1", VideoUnit.mk "v2" "f2"] true
            none = Except.ok [("v1", ["f1"]), ("v2", ["f2"])]) ∧
      (([VideoUnit.mk "v" "f1", VideoUnit.mk "v" "f2"] ≠
            ([] : List VideoUnit)) ∧
        write_movies [VideoUnit.mk "v" "f1", VideoUnit.mk "v" "f2"] true
            none = Except.ok [("v", ["f1", "f2"])]) := by
  refine ⟨⟨by decide, ?_⟩, by decide, ?_⟩
  · exact (write_movies_container_counts.1
      [VideoUnit.mk "v1" "f1", VideoUnit.mk "v2" "f2"] none (by decide)).1
  · exact write_movies_container_counts.2
      [VideoUnit.mk "v" "f1", VideoUnit.mk "v" "f2"] none "v" (by decide)
      (by decide)

/-- C7: colliding proposed container names while the merge-compatible
(external-reference) mode is not selected fail with a naming-conflict error —
no container list is ever produced. -/
theorem write_movies_naming_conflict (units : List VideoUnit)
    (st : Option (List ℚ)) (hdup : ¬(units.map VideoUnit.name).Nodup) :
    write_movies units false st = Except.error ConversionError.namingConflict := by
  simp only [write_movies, Bool.false_eq_true, if_false, if_neg hdup]

theorem write_movies_naming_conflict_witness :
    ¬([VideoUnit.mk "v" "f1", VideoUnit.mk "v" "f2"].map
        VideoUnit.name).Nodup ∧
      write_movies [VideoUnit.mk "v" "f1", VideoUnit.mk "v" "f2"] false none =
        Except.error ConversionError.namingConflict := by
  refine ⟨by decide, ?_⟩
  exact write_movies_naming_conflict
    [VideoUnit.mk "v" "f1", VideoUnit.mk "v" "f2"] none (by decide)

/-- C8: outside the duplicate/merge mode (distinct names, external mode off),
the mandatory one-starting-time-per-unit parameter is validated against the
number of units before any container is produced: supplying none for two or
more units, or supplying a list of the wrong length, yields a configuration
error. -/
theorem write_movies_starting_times_validation (units : List VideoUnit)
    (hnodup : (units.map VideoUnit.name).Nodup) :
    (2 ≤ units.length →
        write_movies units false none =
          Except.error ConversionError.configurationError) ∧
      (∀ ts : List ℚ, ts.length ≠ units.length →
        write_movies units false (some ts) =
          Except.error ConversionError.configurationError) := by
  constructor
  · intro h2
    simp only [write_movies, Bool.false_eq_true, if_false, if_pos hnodup]
    rw [if_neg (by omega)]
  · intro ts hlen
    simp only [write_movies, Bool.false_eq_true, if_false, if_pos hnodup]
    rw [if_neg hlen]

theorem write_movies_starting_times_validation_witness :
    (([VideoUnit.mk "v1" "f1", VideoUnit.mk "v2" "f2"].map
          VideoUnit.name).Nodup ∧
        2 ≤ [VideoUnit.mk "v1" "f1", VideoUnit.mk "v2" "f2"].length ∧
        [(0 : ℚ)].length ≠
          [VideoUnit.mk "v1" "f1", VideoUnit.mk "v2" "f2"].length) ∧
      write_movies [VideoUnit.mk "v1" "f1", VideoUnit.mk "v2" "f2"] false
          none = Except.error ConversionError.configurationError ∧
      write_movies [VideoUnit.mk "v1" "f1", VideoUnit.mk "v2" "f2"] false
          (some [(0 : ℚ)]) = Except.error ConversionError.configurationError := by
  refine ⟨⟨by decide, by decide, by decide⟩, ?_, ?_⟩
  · exact (write_movies_starting_times_validation
      [VideoUnit.mk "v1" "f1", VideoUnit.mk "v2" "f2"] (by decide)).1
      (by decide)
  · exact (write_movies_starting_times_validation
      [VideoUnit.mk "v1" "f1", VideoUnit.mk "v2" "f2"] (by decide)).2
      [(0 : ℚ)] (by decide)

/-- C9 (counterexample): two placeholder-named files, the uniqueness pass
proposing the bare name `".nwb"` for the first and a valid name
`"sub-002.nwb"` for the second.  The failing `assert` aborts the whole
rename loop: the second file keeps its placeholder name and its proposed
name appears nowhere, so the abort is not confined to the failing file. -/
theorem renamePass_abort_not_local :
    postHocRenames
        [ProducedFile.mk "temp_nwbfile_name_1" ".nwb",
          ProducedFile.mk "temp_nwbfile_name_2" "sub-002.nwb"] =
      (["temp_nwbfile_name_1.nwb", "temp_nwbfile_name_2.nwb"],
        some "temp_nwbfile_name_1") ∧
      "sub-002.nwb" ∉
        (postHocRenames
            [ProducedFile.mk "temp_nwbfile_name_1" ".nwb",
              ProducedFile.mk "temp_nwbfile_name_2" "sub-002.nwb"]).1 := by
  decide

/-- C9 (amended): the deterministic-placeholder rename pass runs only when
some produced file carries the placeholder marker; when every temp-named
file has a usable proposed name the pass renames exactly the temp-named
files; and when the pass reaches a temp-named file whose sanitized proposed
name is the bare `".nwb"`, the failure is fatal to the remainder of the
loop — files before it keep their already-performed renames, while the
failing file and every file after it keep their old names. -/
theorem renamePass_abort_semantics :
    (∀ files : List ProducedFile,
        files.any (fun f => containsTemp f.stem) = false →
        postHocRenames files = (files.map (fun f => f.stem ++ ".nwb"), none)) ∧
      (∀ files : List ProducedFile,
        files.any (fun f => containsTemp f.stem) = true →
        postHocRenames files = renamePass files) ∧
      (∀ files : List ProducedFile,
        (∀ f ∈ files, containsTemp f.stem →
          sanitizeDandi f.dandi_filename ≠ ".nwb") →
        renamePass files = (files.map finalName, none)) ∧
      (∀ (pre post : List ProducedFile) (f : ProducedFile),
        (∀ g ∈ pre, containsTemp g.stem →
          sanitizeDandi g.dandi_filename ≠ ".nwb") →
        containsTemp f.stem → sanitizeDandi f.dandi_filename = ".nwb" →
        renamePass (pre ++ f :: post) =
          (pre.map finalName ++
              (f.stem ++ ".nwb") :: post.map (fun g => g.stem ++ ".nwb"),
            some f.stem)) := by
  refine ⟨?_, ?_, ?_, ?_⟩
  · intro files h
    rw [postHocRenames, if_neg (by simp [h])]
  · intro files h
    rw [postHocRenames, if_pos (by simp_all)]
  · intro files h
    induction files with
    | nil => rfl
    | cons g rest ih =>
        have hrest := ih fun f hf => h f (List.mem_cons_of_mem _ hf)
        cases hct : containsTemp g.stem with
        | true =>
            have hne : sanitizeDandi g.dandi_filename ≠ ".nwb" :=
              h g (by simp) hct
            simp [renamePass, hct, hne, hrest, finalName]
        | false =>
            simp [renamePass, hct, hrest, finalName]
  · intro pre post f hpre hf hbad
    induction pre with
    | nil =>
        simp [renamePass, hf, hbad]
    | cons g pre' ih =>
        have hrest := ih fun x hx => hpre x (List.mem_cons_of_mem _ hx)
        cases hct : containsTemp g.stem with
        | true =>
            have hne : sanitizeDandi g.dandi_filename ≠ ".nwb" :=
              hpre g (by simp) hct
            simp [renamePass, hct, hne, hrest, finalName]
        | false =>
            simp [renamePass, hct, hrest, finalName]

theorem renamePass_abort_semantics_witness :
    ((∀ g ∈ [ProducedFile.mk "temp_nwbfile_name_1" "sub-001.nwb"],
          containsTemp g.stem → sanitizeDandi g.dandi_filename ≠ ".nwb") ∧
        containsTemp "temp_nwbfile_name_2" = true ∧
        sanitizeDandi ".nwb" = ".nwb") ∧
      renamePass
          ([ProducedFile.mk "temp_nwbfile_name_1" "sub-001.nwb"] ++
            ProducedFile.mk "temp_nwbfile_name_2" ".nwb" ::
              [ProducedFile.mk "session3" "sub-003.nwb"]) =
        ([ProducedFile.mk "temp_nwbfile_name_1" "sub-001.nwb"].map finalName ++
            ("temp_nwbfile_name_2" ++ ".nwb") ::
              [ProducedFile.mk "session3" "sub-003.nwb"].map
                (fun g => g.stem ++ ".nwb"),
          some "temp_nwbfile_name_2") := by
  refine ⟨⟨by decide, by decide, by decide⟩, ?_⟩
  exact renamePass_abort_semantics.2.2.2
    [ProducedFile.mk "temp_nwbfile_name_1" "sub-001.nwb"]
    [ProducedFile.mk "session3" "sub-003.nwb"]
    (ProducedFile.mk "temp_nwbfile_name_2" ".nwb")
    (by decide) (by decide) (by decide)

theorem digitChar_ge_ten (d : ℕ) (h : 10 ≤ d) : digitChar d = 'X' := by
  rw [digitChar.eq_def]
  split <;> first | omega | rfl

theorem digitVal_digitChar (d : ℕ) (h : d < 10) :
    digitVal (digitChar d) = d := by
  interval_cases d <;> rfl

theorem digitChar_not_mem_strip (d : ℕ) : digitChar d ∉ nwbStripSet := by
  by_cases h : d < 10
  · interval_cases d <;> decide
  · rw [digitChar_ge_ten d (by omega)]
    decide

theorem decDigitsVal_append (l : List Char) (c : Char) :
    decDigitsVal (l ++ [c]) = decDigitsVal l * 10 + digitVal c := by
  simp [decDigitsVal, List.foldl_append]

theorem decDigitsVal_natDecDigitsAux (fuel : ℕ) :
    ∀ n : ℕ, n ≤ fuel → decDigitsVal (natDecDigitsAux fuel n) = n := by
  induction fuel with
  | zero => intro n hn; interval_cases n; rfl
  | succ fuel ih =>
      intro n hn
      by_cases h10 : n < 10
      · simp only [natDecDigitsAux, if_pos h10]
        simp [decDigitsVal, digitVal_digitChar n h10]
      · have hdiv : n / 10 < n := Nat.div_lt_self (by omega) (by norm_num)
        simp only [natDecDigitsAux, if_neg h10]
        rw [decDigitsVal_append, ih (n / 10) (by omega),
          digitVal_digitChar (n % 10) (by omega)]
        omega

theorem natDecDigits_inj (m n : ℕ) (h : natDecDigits m = natDecDigits n) :
    m = n := by
  have hm := decDigitsVal_natDecDigitsAux m m le_rfl
  have hn := decDigitsVal_natDecDigitsAux n n le_rfl
  rw [natDecDigits] at h
  rw [← hm, ← hn, h]
  rfl

theorem natDecDigitsAux_getLast (fuel : ℕ) :
    ∀ n : ℕ, n ≤ fuel → ∃ d, d < 10 ∧
      (natDecDigitsAux fuel n).getLast? = some (digitChar d) := by
  induction fuel with
  | zero => intro n hn; interval_cases n; exact ⟨0, by omega, rfl⟩
  | succ fuel ih =>
      intro n hn
      by_cases h10 : n < 10
      · exact ⟨n, h10, by simp [natDecDigitsAux, if_pos h10]⟩
      · refine ⟨n % 10, by omega, ?_⟩
        simp [natDecDigitsAux, if_neg h10]

theorem dropWhile_eq_self_of_head (p : Char → Bool) (l : List Char)
    (h : ∀ c, l.head? = some c → p c = false) : l.dropWhile p = l := by
  cases l with
  | nil => rfl
  | cons a l' => rw [List.dropWhile_cons, h a rfl]; simp

theorem stripChars_eq_self (cs : List Char) (s : String)
    (hhead : ∀ c, s.data.head? = some c → c ∉ cs)
    (hlast : ∀ c, s.data.getLast? = some c → c ∉ cs) :
    stripChars cs s = s := by
  obtain ⟨l⟩ := s
  simp only at hhead hlast
  have h1 : l.dropWhile (fun c => decide (c ∈ cs)) = l :=
    dropWhile_eq_self_of_head _ _ fun c hc => by simpa using hhead c hc
  have h2 : l.reverse.dropWhile (fun c => decide (c ∈ cs)) = l.reverse :=
    dropWhile_eq_self_of_head _ _ fun c hc => by
      rw [List.head?_reverse] at hc
      simpa using hlast c hc
  simp only [stripChars, h1, h2, List.reverse_reverse]

theorem stripChars_data (cs : List Char) (s : String) :
    (stripChars cs s).data =
      ((s.data.dropWhile fun c => decide (c ∈ cs)).reverse.dropWhile
          fun c => decide (c ∈ cs)).reverse := rfl

theorem string_append_data (s t : String) : (s ++ t).data = s.data ++ t.data := by
  cases s; cases t; rfl

theorem string_eq_of_data (s t : String) (h : s.data = t.data) : s = t := by
  cases s; cases t; simp only at h; rw [h]

theorem stripChars_ne_of_head (cs : List Char) (s : String) (c : Char)
    (rest : List Char) (hdata : s.data = c :: rest) (hc : c ∈ cs) :
    stripChars cs s ≠ s := by
  have hlen : (stripChars cs s).data.length < s.data.length := by
    rw [stripChars_data, hdata]
    rw [List.dropWhile_cons, if_pos (by simpa using hc)]
    have l1 : ((rest.dropWhile fun c => decide (c ∈ cs)).reverse.dropWhile
        fun c => decide (c ∈ cs)).length ≤
        (rest.dropWhile fun c => decide (c ∈ cs)).reverse.length :=
      (List.dropWhile_suffix _).length_le
    have l2 : (rest.dropWhile fun c => decide (c ∈ cs)).length ≤ rest.length :=
      (List.dropWhile_suffix _).length_le
    simp only [List.length_reverse, List.length_cons] at *
    omega
  intro heq
  rw [heq] at hlen
  exact lt_irrefl _ hlen

theorem stripChars_ne_of_last (cs : List Char) (s : String) (c : Char)
    (rest : List Char) (hdata : s.data = rest ++ [c]) (hc : c ∈ cs) :
    stripChars cs s ≠ s := by
  have hpos : 0 < s.data.length := by rw [hdata]; simp
  have hlen : (stripChars cs s).data.length < s.data.length := by
    rw [stripChars_data]
    set f := s.data.dropWhile fun c => decide (c ∈ cs) with hf
    have hsuf : f <:+ s.data := List.dropWhile_suffix _
    have hflen : f.length ≤ s.data.length := hsuf.length_le
    cases hfe : f with
    | nil => simpa [hfe] using hpos
    | cons a f' =>
        have hfne : f ≠ [] := by rw [hfe]; exact List.cons_ne_nil a f'
        have hlast : f.getLast? = some c := by
          obtain ⟨t, ht⟩ := hsuf
          have : s.data.getLast? = some c := by rw [hdata]; simp
          rw [← ht, List.getLast?_append] at this
          cases hfl : f.getLast? with
          | none => simp [List.getLast?_eq_none_iff.mp hfl] at hfne
          | some x =>
              rw [hfl] at this
              simp only [Option.or_some, Option.some.injEq] at this
              rw [this]
        have hrev : f.reverse.head? = some c := by
          rw [List.head?_reverse]; exact hlast
        cases hre : f.reverse with
        | nil => simp [hre] at hrev
        | cons b tail =>
            have hb : b = c := by
              rw [hre] at hrev
              simpa using hrev
            rw [← hfe, hre, List.dropWhile_cons, hb,
              if_pos (by simpa using hc)]
            have l1 : (tail.dropWhile fun c => decide (c ∈ cs)).length ≤
                tail.length := (List.dropWhile_suffix _).length_le
            have l3 : tail.length + 1 = f.length := by
              have := congrArg List.length hre
              simp only [List.length_reverse, List.length_cons] at this
              omega
            simp only [List.length_reverse]
            omega
  intro heq
  rw [heq] at hlen
  exact lt_irrefl _ hlen

theorem tempPlaceholder_data (k : ℕ) :
    (tempPlaceholder k).data = "temp_nwbfile_name_".data ++ natDecDigits k := rfl

theorem tempPlaceholder_head (k : ℕ) :
    (tempPlaceholder k).data.head? = some 't' := rfl

theorem tempPlaceholder_getLast (k : ℕ) :
    ∃ d, d < 10 ∧ (tempPlaceholder k).data.getLast? = some (digitChar d) := by
  obtain ⟨d, hd, hlast⟩ := natDecDigitsAux_getLast k k le_rfl
  refine ⟨d, hd, ?_⟩
  rw [tempPlaceholder_data, List.getLast?_append, natDecDigits, hlast]
  rfl

theorem stripChars_tempPlaceholder (k : ℕ) :
    stripChars nwbStripSet (tempPlaceholder k) = tempPlaceholder k := by
  apply stripChars_eq_self
  · intro c hc
    rw [tempPlaceholder_head] at hc
    cases hc
    decide
  · intro c hc
    obtain ⟨d, _, hlast⟩ := tempPlaceholder_getLast k
    rw [hlast] at hc
    cases hc
    exact digitChar_not_mem_strip d

theorem batchFileNamesAux_getElem (sessions : List (Option String)) :
    ∀ (k i : ℕ),
      (batchFileNamesAux k sessions)[i]? =
        (sessions[i]?).map fun s => sessionFileName (k + i + 1) s := by
  induction sessions with
  | nil => intro k i; simp [batchFileNamesAux]
  | cons s rest ih =>
      intro k i
      cases i with
      | zero => simp [batchFileNamesAux]
      | succ i =>
          simp only [batchFileNamesAux, List.getElem?_cons_succ, ih (k + 1) i]
          have : k + 1 + i + 1 = k + (i + 1) + 1 := by omega
          rw [this]

/-- C10: the output file of a session is `output_folder/<s>.nwb` where `<s>`
is the session's `nwbfile_name` with every leading and trailing character in
`{'.', 'n', 'w', 'b'}` removed (Python `str.strip(".nwb")`); a name whose
first or last character lies in that set is truncated even without a
`.nwb` extension; a session without `nwbfile_name` gets the placeholder
`temp_nwbfile_name_<k>` (which the strip leaves intact), `k` the 1-based
session counter over the whole batch, so default-named sessions always get
pairwise distinct file names. -/
theorem session_file_naming :
    (∀ (k : ℕ) (name : String),
        sessionFileName k (some name) =
          stripChars nwbStripSet name ++ ".nwb") ∧
      (∀ k : ℕ, sessionFileName k none = tempPlaceholder k ++ ".nwb") ∧
      (∀ (s : String) (c : Char) (rest : List Char),
        s.data = c :: rest → c ∈ nwbStripSet →
        stripChars nwbStripSet s ≠ s) ∧
      (∀ (s : String) (c : Char) (rest : List Char),
        s.data = rest ++ [c] → c ∈ nwbStripSet →
        stripChars nwbStripSet s ≠ s) ∧
      (∀ (experiments : List (List (Option String))) (i j : ℕ),
        experiments.flatten[i]? = some none →
        experiments.flatten[j]? = some none →
        i ≠ j →
        (batchFileNames experiments)[i]? ≠ (batchFileNames experiments)[j]?) := by
  refine ⟨fun k name => rfl, ?_, stripChars_ne_of_head nwbStripSet,
    stripChars_ne_of_last nwbStripSet, ?_⟩
  · intro k
    rw [sessionFileName, Option.getD_none, stripChars_tempPlaceholder]
  · intro exps i j hi hj hne
    rw [batchFileNames, batchFileNamesAux_getElem _ 0 i,
      batchFileNamesAux_getElem _ 0 j, hi, hj]
    intro heq
    have heq2 : sessionFileName (0 + i + 1) none =
        sessionFileName (0 + j + 1) none := by simpa using heq
    rw [sessionFileName, sessionFileName, Option.getD_none, Option.getD_none,
      stripChars_tempPlaceholder, stripChars_tempPlaceholder] at heq2
    have hdata := congrArg String.data heq2
    rw [string_append_data, string_append_data, tempPlaceholder_data,
      tempPlaceholder_data] at hdata
    have h1 := List.append_cancel_right hdata
    have h2 := List.append_cancel_left h1
    have h3 := natDecDigits_inj _ _ h2
    exact hne (by omega)

theorem session_file_naming_witness :
    ("before".data = 'b' :: "efore".data ∧ 'b' ∈ nwbStripSet ∧
        "heaven".data = "heave".data ++ ['n'] ∧ 'n' ∈ nwbStripSet ∧
        [[(none : Option String)], [none]].flatten[0]? = some none ∧
        [[(none : Option String)], [none]].flatten[1]? = some none ∧
        (0 : ℕ) ≠ 1) ∧
      stripChars nwbStripSet "before" ≠ "before" ∧
      stripChars nwbStripSet "heaven" ≠ "heaven" ∧
      (batchFileNames [[(none : Option String)], [none]])[0]? ≠
        (batchFileNames [[(none : Option String)], [none]])[1]? := by
  refine ⟨⟨rfl, by decide, by decide, by decide, rfl, rfl, by decide⟩,
    ?_, ?_, ?_⟩
  · exact session_file_naming.2.2.1 "before" 'b' "efore".data rfl (by decide)
  · exact session_file_naming.2.2.2.1 "heaven" 'n' "heave".data (by decide)
      (by decide)
  · exact session_file_naming.2.2.2.2 [[none], [none]] 0 1 rfl rfl (by decide)
